import Mathlib

/-!
Verification of the document-translation pipeline in translate.py.

Python strings are modelled as lists of characters (`Str`), so that raw
length, slicing and whitespace handling are explicit.  Each definition below
is a shallow embedding of the corresponding Python function; external
collaborators (the translation backend, the OCR engine, the PIL overlay
pipeline, pandoc, the file system) are parameters, bundled in `World` for the
document-level functions.
-/

/-- Python strings as explicit character lists. -/
abbrev Str := List Char

/-- Bytes of a file inside the docx archive (abstract). -/
abbrev Bytes := List Nat

/-- Whitespace characters recognised by Python str.split / str.strip
(ASCII range). -/
def pyIsSpace (c : Char) : Bool :=
  c = ' ' || c = '\t' || c = '\n' || c = '\r' || c = '\x0b' || c = '\x0c'

/-- Python str.lstrip with no argument: drop leading whitespace. -/
def lstrip (s : Str) : Str := s.dropWhile pyIsSpace

/-- Python str.rstrip with no argument: drop trailing whitespace. -/
def rstrip (s : Str) : Str := (s.reverse.dropWhile pyIsSpace).reverse

/-- Python str.strip with no argument: drop leading and trailing whitespace. -/
def strip (s : Str) : Str := lstrip (rstrip s)

/-- Worker for Python str.split with no argument: scan the characters,
accumulating the current word in `cur`; whitespace ends a word, and empty
words are never emitted. -/
def splitGo : Str → Str → List Str
  | [], cur => if cur = [] then [] else [cur]
  | c :: rest, cur =>
    if pyIsSpace c then
      if cur = [] then splitGo rest [] else cur :: splitGo rest []
    else
      splitGo rest (cur ++ [c])

/-- Python str.split with no argument: whitespace-delimited words, empty
words discarded. -/
def split (s : Str) : List Str := splitGo s []

/-- Python " ".join: concatenate with a single space between elements. -/
def joinSp : List Str → Str
  | [] => []
  | [w] => w
  | w :: x :: ws => w ++ ' ' :: joinSp (x :: ws)

/-- Worker for chunk_text in translate.py: fold over the words, flushing the
stripped buffer whenever appending the next word plus one separating space
would exceed max_len, and flushing the remaining nonempty buffer at the end. -/
def chunkGo (maxLen : Nat) : List Str → Str → List Str → List Str
  | [], current, chunks =>
      if current = [] then chunks else chunks ++ [strip current]
  | w :: ws, current, chunks =>
      if current.length + w.length + 1 > maxLen then
        chunkGo maxLen ws (w ++ [' ']) (chunks ++ [strip current])
      else
        chunkGo maxLen ws (current ++ (w ++ [' '])) chunks

/-- chunk_text from translate.py: split text into chunks for translation.
The default max_len in the source is 4000. -/
def chunk_text (text : Str) (maxLen : Nat) : List Str :=
  chunkGo maxLen (split text) [] []

/-- translate_text from translate.py, instrumented with the number of calls
made to the translation backend `tr` (GoogleTranslator.translate).  The
result is the pair (returned string, number of backend calls). -/
def translate_text (tr : Str → Str) (text : Str) : Str × Nat :=
  if strip text = [] then (text, 0)
  else if text.length > 4000 then
    let chunks := chunk_text text 4000
    (joinSp (chunks.map tr), chunks.length)
  else (tr text, 1)

/-- Lowercase a string character-wise (Python str.lower, ASCII range). -/
def lowerStr (s : Str) : Str := s.map Char.toLower

/-- Python str.endswith for a single suffix. -/
def endsWith (s suffix : Str) : Bool :=
  decide (s.drop (s.length - suffix.length) = suffix)

/-- os.path.basename on POSIX: the part after the last slash. -/
def basename (s : Str) : Str :=
  (s.reverse.takeWhile (fun c => decide (c ≠ '/'))).reverse

/-- Root part of os.path.splitext: cut at the last dot, unless every
character before that dot is itself a dot (leading dots of a hidden file
are not an extension separator). -/
def splitextRoot (nm : Str) : Str :=
  match nm.reverse.dropWhile (fun c => decide (c ≠ '.')) with
  | [] => nm
  | _dot :: beforeRev =>
    if beforeRev.any (fun c => decide (c ≠ '.')) then beforeRev.reverse else nm

/-- os.path.dirname on POSIX: everything before the last slash, with
trailing slashes stripped unless the result is only slashes. -/
def dirname (s : Str) : Str :=
  let head := (s.reverse.dropWhile (fun c => decide (c ≠ '/'))).reverse
  if head = [] then []
  else if head.all (fun c => decide (c = '/')) then head
  else (head.reverse.dropWhile (fun c => decide (c = '/'))).reverse

/-- os.path.join on POSIX for two components. -/
def pathJoin (a b : Str) : Str :=
  match b with
  | '/' :: _ => b
  | _ =>
    if a = [] then b
    else match a.reverse with
      | '/' :: _ => a ++ b
      | _ => a ++ '/' :: b

/-- Python list.insert(-1, x): insert x just before the last element. -/
def pyInsertNegOne (l : List Str) (x : Str) : List Str :=
  l.take (l.length - 1) ++ x :: l.drop (l.length - 1)

/-- The argument vector built by convert_using_pandoc in translate.py:
cmd starts as pandoc input -o output_path, and for rtf the source runs
cmd.insert(-1, the to=rtf flag). -/
def convert_cmd (input_path output_dir to_format : Str) : List Str :=
  let base_name := splitextRoot (basename input_path)
  let output_path := pathJoin output_dir (base_name ++ '.' :: to_format)
  let cmd := ["pandoc".toList, input_path, "-o".toList, output_path]
  if to_format = "rtf".toList then pyInsertNegOne cmd "--to=rtf".toList else cmd

/-- Python exceptions that the pipeline raises or propagates. -/
inductive Err
  | fileNotFound (msg : Str)
  | zipOpenFail
  | exc (msg : Str)
deriving DecidableEq

/-- Sequential effectful map: stop at the first raised exception, as a
Python for-loop over fallible calls does. -/
def mapE {α β : Type} (f : α → Except Err β) : List α → Except Err (List β)
  | [] => .ok []
  | a :: as =>
    match f a with
    | .error e => .error e
    | .ok b =>
      match mapE f as with
      | .error e => .error e
      | .ok bs => .ok (b :: bs)

/-- translate_text over a backend that may raise (GoogleTranslator.translate
can fail on network or quota errors); same control flow as translate_text. -/
def translate_textE (tr : Str → Except Err Str) (text : Str) : Except Err Str :=
  if strip text = [] then .ok text
  else if text.length > 4000 then
    match mapE tr (chunk_text text 4000) with
    | .error e => .error e
    | .ok ts => .ok (joinSp ts)
  else tr text

/-- One file of the unpacked docx archive: its relative path from the
archive root, as components, and its bytes. -/
structure DFile where
  path : List Str
  data : Bytes
deriving DecidableEq

/-- The textual content of a docx as python-docx parses it: body paragraphs
and tables (table, then rows, then cells, then cell paragraphs). -/
structure DocContent where
  paragraphs : List Str
  tables : List (List (List (List Str)))
deriving DecidableEq

/-- A docx document: the parsed textual view that Document(path) loads and
the archive entries that zipfile extracts.  The document part bytes inside
files encode the (untranslated) content. -/
structure Docx where
  content : DocContent
  files : List DFile
deriving DecidableEq

/-- A rectangular region on a PDF page (pymupdf Rect, abstract coordinates). -/
structure Rect where
  x0 : Int
  y0 : Int
  x1 : Int
  y1 : Int
deriving DecidableEq

/-- Payload of a text-extraction block: block[4] is the text for textual
blocks; the source skips any block whose payload is not a string. -/
inductive BlockPayload
  | text (s : Str)
  | nonText
deriving DecidableEq

/-- One block returned by page.get_text("blocks", ...). -/
structure Block where
  rect : Rect
  payload : BlockPayload
deriving DecidableEq

/-- A PDF as a list of pages, each a list of blocks. -/
structure Pdf where
  pages : List (List Block)
deriving DecidableEq

/-- An optional-content group created by doc.add_ocg(name, on); visible
records the on keyword argument. -/
structure OCG where
  name : Str
  visible : Bool
deriving DecidableEq

/-- Drawing operations the rewriter performs; oc is the xref of the
optional-content group the operation is scoped to. -/
inductive PdfOp
  | drawRect (r : Rect) (fillWhite : Bool) (oc : Nat)
  | insertHtml (r : Rect) (text : Str) (oc : Nat)
deriving DecidableEq

/-- The OCG reference an operation is scoped to. -/
def PdfOp.ocRef : PdfOp → Nat
  | .drawRect _ _ n => n
  | .insertHtml _ _ n => n

/-- Result of a successful PDF rewrite: the layers added to the document
and the drawing operations performed, in order. -/
structure PdfOut where
  layers : List OCG
  ops : List PdfOp
deriving DecidableEq

/-- External collaborators and file-system state, as the document-level
functions see them.  tr is GoogleTranslator.translate; ocr is
pytesseract.image_to_string; overlay is the PIL open/draw/save pipeline on
an image file (white rectangle over the bottom strip plus the translated
text, re-encoded); loadDocx is Document(path) plus the zip extraction;
loadPdf is pymupdf.open; pandoc runs the subprocess with the given argv;
rename is os.rename; parentExists tells whether a directory exists before
any makedirs call for it. -/
structure World where
  tr : Str → Except Err Str
  ocr : Bytes → Except Err Str
  overlay : Bytes → Str → Bytes
  loadDocx : Str → Except Err Docx
  loadPdf : Str → Except Err Pdf
  pandoc : List Str → Except Err Unit
  rename : Str → Str → Except Err Unit
  parentExists : Str → Bool
  tempDir : Str

/-- Raster extensions recognised by the image phase, matched
case-insensitively against the file name, as in the source:
img_file.lower().endswith((png, jpg, jpeg)). -/
def hasRasterExt (nm : Str) : Bool :=
  endsWith (lowerStr nm) ".png".toList ||
  endsWith (lowerStr nm) ".jpg".toList ||
  endsWith (lowerStr nm) ".jpeg".toList

/-- Whether an archive entry is a direct child of the fixed internal media
folder word/media with a recognised raster extension. -/
def isMediaRaster (p : List Str) : Bool :=
  match p with
  | [d1, d2, nm] =>
    decide (d1 = "word".toList) && decide (d2 = "media".toList) && hasRasterExt nm
  | _ => false

/-- Phase 1 of translate_docx: translate every body paragraph, then every
paragraph of every cell of every row of every table, in document order,
on the in-memory Document object. -/
def phase1E (tr : Str → Except Err Str) (c : DocContent) : Except Err DocContent :=
  match mapE (translate_textE tr) c.paragraphs with
  | .error e => .error e
  | .ok ps =>
    match mapE (fun tbl =>
        mapE (fun row =>
          mapE (fun cell => mapE (translate_textE tr) cell) row) tbl) c.tables with
    | .error e => .error e
    | .ok ts => .ok { paragraphs := ps, tables := ts }

/-- Phase 2 of translate_docx on one extracted file: raster files directly
under word/media are OCRed; if the recognised text strips to empty the file
is left untouched, otherwise the translation is burned onto the image and
the file is overwritten in place.  All other files are untouched. -/
def phase2step (W : World) (f : DFile) : Except Err DFile :=
  if isMediaRaster f.path then
    match W.ocr f.data with
    | .error e => .error e
    | .ok t =>
      if strip t = [] then .ok f
      else
        match translate_textE W.tr t with
        | .error e => .error e
        | .ok t2 => .ok { f with data := W.overlay f.data t2 }
  else .ok f

/-- Phase 2 over the whole extracted archive. -/
def phase2E (W : World) (files : List DFile) : Except Err (List DFile) :=
  mapE (phase2step W) files

/-- The try-block of translate_docx: load the document, run phase 1 on the
in-memory Document, extract the input archive, run phase 2 on the media
files, then open output_path for writing and repack every extracted file
under its relative path.  The zipfile.ZipFile(output_path, w) open fails
when the parent directory of output_path does not exist, since
os.makedirs runs only after the with-block.  The first component of the
result is the translated in-memory content, which the source never saves;
the second is the archive written to output_path. -/
def translate_docx_body (W : World) (input_path : Str) (parentExists : Bool) :
    Except Err (DocContent × List DFile) :=
  match W.loadDocx input_path with
  | .error e => .error e
  | .ok d =>
    match phase1E W.tr d.content with
    | .error e => .error e
    | .ok mem =>
      match phase2E W d.files with
      | .error e => .error e
      | .ok files =>
        if parentExists then .ok (mem, files) else .error Err.zipOpenFail

/-- Observable outcome of translate_docx: the archive written to
output_path (none when the body raised before the repack), whether the
os.makedirs step after the repack ran, and the failure lines printed. -/
structure DocxRunResult where
  outFiles : Option (List DFile)
  dirCreated : Bool
  log : List Str
deriving DecidableEq

/-- translate_docx from translate.py: the whole body is wrapped in
try/except Exception, which prints a line naming input_path and swallows
the failure. -/
def translate_docxRun (W : World) (input_path : Str) (parentExists : Bool) :
    DocxRunResult :=
  match translate_docx_body W input_path parentExists with
  | .ok r => { outFiles := some r.2, dirCreated := true, log := [] }
  | .error _ => { outFiles := none, dirCreated := false, log := [input_path] }

/-- Operations for one block of a PDF page: non-string payloads are
skipped; otherwise the block text is translated and a white erasure
rectangle plus the translated text are inserted into the same bounding
box, both scoped to the optional-content group with xref ocgXref. -/
def blockOpsE (tr : Str → Except Err Str) (ocgXref : Nat) (b : Block) :
    Except Err (List PdfOp) :=
  match b.payload with
  | .nonText => .ok []
  | .text s =>
    match translate_textE tr s with
    | .error e => .error e
    | .ok t => .ok [PdfOp.drawRect b.rect true ocgXref,
                    PdfOp.insertHtml b.rect t ocgXref]

/-- Operations over one page, in block order. -/
def pageOpsE (tr : Str → Except Err Str) (ocgXref : Nat)
    (pg : List Block) : Except Err (List PdfOp) :=
  match mapE (blockOpsE tr ocgXref) pg with
  | .error e => .error e
  | .ok l => .ok l.flatten

/-- Operations over all pages, in page order then block order. -/
def pagesOpsE (tr : Str → Except Err Str) (ocgXref : Nat)
    (pages : List (List Block)) : Except Err (List PdfOp) :=
  match mapE (pageOpsE tr ocgXref) pages with
  | .error e => .error e
  | .ok l => .ok l.flatten

/-- The try-block of translate_pdf: open the document, add one
optional-content group named Portuguese with on=True (its xref is
modelled as 0, the index of the added layer), then walk every page and
every block.  os.makedirs runs before ez_save here, so saving does not
depend on a pre-existing parent directory. -/
def translate_pdf_body (W : World) (input_path : Str) : Except Err PdfOut :=
  match W.loadPdf input_path with
  | .error e => .error e
  | .ok doc =>
    let ocg : OCG := { name := "Portuguese".toList, visible := true }
    match pagesOpsE W.tr 0 doc.pages with
    | .error e => .error e
    | .ok ops => .ok { layers := [ocg], ops := ops }

/-- Observable outcome of translate_pdf. -/
structure PdfRunResult where
  saved : Option PdfOut
  log : List Str
deriving DecidableEq

/-- translate_pdf from translate.py: body wrapped in try/except Exception,
printing a line naming input_path and swallowing the failure. -/
def translate_pdfRun (W : World) (input_path : Str) : PdfRunResult :=
  match translate_pdf_body W input_path with
  | .ok out => { saved := some out, log := [] }
  | .error _ => { saved := none, log := [input_path] }

/-- convert_using_pandoc from translate.py: run the subprocess; a missing
pandoc binary is re-raised as a distinguished FileNotFoundError with an
install hint, any other failure is printed with the input path and
re-raised.  The second component collects the printed lines. -/
def convert_pandocE (W : World) (input_path output_dir to_format : Str) :
    Except Err Unit × List Str :=
  match W.pandoc (convert_cmd input_path output_dir to_format) with
  | .ok _ => (.ok (), [])
  | .error (Err.fileNotFound _) =>
    (.error (Err.fileNotFound "Pandoc not found. Install it via brew install pandoc on macOS.".toList), [])
  | .error e => (.error e, [input_path])

/-- The try-block of the .doc/.rtf branch of process_file: convert the
input to docx in a temporary directory, translate that docx in place
(translate_docx swallows its own failures), convert back into the output
directory, and rename into place when the natural pandoc output name
differs from the requested output path. -/
def bridge_body (W : World) (input_path output_path ext : Str) :
    Except Err Unit × List Str :=
  let base_name := splitextRoot (basename input_path)
  let docx_path := pathJoin W.tempDir (base_name ++ '.' :: "docx".toList)
  match convert_pandocE W input_path W.tempDir "docx".toList with
  | (.error e, lg) => (.error e, lg)
  | (.ok _, lg1) =>
    let r := translate_docxRun W docx_path true
    let original_format := ext.drop 1
    let temp_output_dir := dirname output_path
    match convert_pandocE W docx_path temp_output_dir original_format with
    | (.error e, lg2) => (.error e, lg1 ++ r.log ++ lg2)
    | (.ok _, lg2) =>
      let converted_path := pathJoin temp_output_dir (base_name ++ '.' :: original_format)
      if converted_path = output_path then (.ok (), lg1 ++ r.log ++ lg2)
      else
        match W.rename converted_path output_path with
        | .error e => (.error e, lg1 ++ r.log ++ lg2)
        | .ok _ => (.ok (), lg1 ++ r.log ++ lg2)

/-- What the batch driver observes for one job. -/
structure BatchOutcome where
  produced : Bool
  routeFailed : Bool
  log : List Str
deriving DecidableEq

/-- process_file from translate.py: route on the extension; .docx and .pdf
go to rewriters that swallow their own failures, everything else goes to
the pandoc bridge whose try/except prints a line naming input_path and
swallows the failure.  The Except layer of the result holds any exception
that would escape to the batch driver. -/
def process_fileE (W : World) (input_path output_path ext : Str) :
    Except Err BatchOutcome :=
  if ext = ".docx".toList then
    let r := translate_docxRun W input_path (W.parentExists (dirname output_path))
    .ok { produced := r.outFiles.isSome, routeFailed := r.outFiles.isNone, log := r.log }
  else if ext = ".pdf".toList then
    let r := translate_pdfRun W input_path
    .ok { produced := r.saved.isSome, routeFailed := r.saved.isNone, log := r.log }
  else
    match bridge_body W input_path output_path ext with
    | (.ok _, lg) => .ok { produced := true, routeFailed := false, log := lg }
    | (.error _, lg) => .ok { produced := false, routeFailed := true, log := lg ++ [input_path] }

/-- A single word of 4001 characters, longer than the chunk limit. -/
def bigWord : Str := List.replicate 4001 'a'

/-- A default world: identity translator, blank OCR, identity overlay
pipeline, no documents, pandoc and rename succeed, directories exist. -/
def Wbase : World where
  tr := fun s => .ok s
  ocr := fun _ => .ok []
  overlay := fun b _ => b
  loadDocx := fun _ => .error (Err.exc [])
  loadPdf := fun _ => .error (Err.exc [])
  pandoc := fun _ => .ok ()
  rename := fun _ _ => .ok ()
  parentExists := fun _ => true
  tempDir := "/tmp/work".toList

/-- The word Hello, one body paragraph of the sample document. -/
def hello : Str := "Hello".toList

/-- The archive entry holding the document part of the sample docx. -/
def docPart : DFile where
  path := ["word".toList, "document.xml".toList]
  data := [0, 1, 2]

/-- A sample docx: one body paragraph Hello, no tables, no media; its
archive holds only the document part. -/
def doc1 : Docx where
  content := { paragraphs := [hello], tables := [] }
  files := [docPart]

/-- A world whose backend visibly changes every text by appending an
exclamation mark, loading the sample docx. -/
def W1 : World :=
  { Wbase with
    tr := fun s => .ok (s ++ "!".toList)
    loadDocx := fun _ => .ok doc1 }

/-- A raster image entry directly under word/media. -/
def mediaFile : DFile where
  path := ["word".toList, "media".toList, "image1.png".toList]
  data := [7, 7, 7]

/-- A non-media archive entry. -/
def stylesFile : DFile where
  path := ["word".toList, "styles.xml".toList]
  data := [9]

/-- A docx with one embedded image and one untouched part; its body is
empty. -/
def doc9 : Docx where
  content := { paragraphs := [], tables := [] }
  files := [mediaFile, stylesFile]

/-- A world that recognises no text in any image, loading doc9. -/
def W9 : World := { Wbase with loadDocx := fun _ => .ok doc9 }

/-- A docx holding only the embedded image. -/
def docM : Docx where
  content := { paragraphs := [], tables := [] }
  files := [mediaFile]

/-- A world whose OCR recognises the text x in every image and whose
overlay pipeline happens to reproduce the original bytes. -/
def Wdeg : World :=
  { Wbase with
    ocr := fun _ => .ok "x".toList
    loadDocx := fun _ => .ok docM }

/-- The overlay layer the PDF rewriter creates on every run. -/
def layerPT : OCG where
  name := "Portuguese".toList
  visible := true

/-- An empty PDF. -/
def pdfA : Pdf where
  pages := []

/-- A one-page PDF whose single block is not textual. -/
def pdfB : Pdf where
  pages := [[{ rect := { x0 := 0, y0 := 0, x1 := 1, y1 := 1 }, payload := BlockPayload.nonText }]]

/-- A world loading pdfA. -/
def WpdfA : World := { Wbase with loadPdf := fun _ => .ok pdfA }

/-- A world loading pdfB. -/
def WpdfB : World := { Wbase with loadPdf := fun _ => .ok pdfB }

/-- A one-page PDF with a single textual block. -/
def pdf10 : Pdf where
  pages := [[{ rect := { x0 := 0, y0 := 0, x1 := 5, y1 := 5 }, payload := BlockPayload.text "hi".toList }]]

/-- A world loading pdf10. -/
def W10 : World := { Wbase with loadPdf := fun _ => .ok pdf10 }

/-- A world whose translation backend always raises, loading the sample
docx, so that the .docx route fails inside translate_docx. -/
def Wfail : World :=
  { Wbase with
    tr := fun _ => .error (Err.exc "network".toList)
    loadDocx := fun _ => .ok doc1 }

/-- The chunk buffer as built by the source loop: each accumulated word
followed by one space. -/
def wordsRep : List Str → Str
  | [] => []
  | w :: ws => w ++ ' ' :: wordsRep ws

/-- Total length of a word list counting one separating space per word. -/
def sumWordLen : List Str → Nat
  | [] => 0
  | w :: ws => w.length + 1 + sumWordLen ws

/-- A word as produced by str.split: nonempty and free of whitespace. -/
def goodWord (w : Str) : Prop := w ≠ [] ∧ ∀ c ∈ w, pyIsSpace c = false

/-- A whitespace-only text of length exactly 4000, the chunk limit. -/
def spaces4000 : Str := List.replicate 4000 ' '

/-- A text of length 4001: one word followed by 4000 spaces. -/
def aSpaces : Str := 'a' :: List.replicate 4000 ' '

theorem pyIsSpace_space : pyIsSpace ' ' = true := rfl

theorem rstrip_append_space (s : Str) : rstrip (s ++ [' ']) = rstrip s := by
  simp [rstrip, List.dropWhile_cons, pyIsSpace_space]

theorem strip_append_space (s : Str) : strip (s ++ [' ']) = strip s := by
  simp [strip, rstrip_append_space]

theorem length_rstrip_le (s : Str) : (rstrip s).length ≤ s.length := by
  simpa [rstrip] using (List.dropWhile_sublist (l := s.reverse) pyIsSpace).length_le

theorem length_strip_le (s : Str) : (strip s).length ≤ s.length :=
  le_trans (by simpa [strip, lstrip] using
    (List.dropWhile_sublist (l := rstrip s) pyIsSpace).length_le) (length_rstrip_le s)

theorem lstrip_cons_no_ws (c : Char) (s : Str) (h : pyIsSpace c = false) :
    lstrip (c :: s) = c :: s := by
  simp [lstrip, List.dropWhile_cons, h]

theorem rstrip_append_no_ws (s w : Str) (hw : w ≠ [])
    (h : ∀ c ∈ w, pyIsSpace c = false) : rstrip (s ++ w) = s ++ w := by
  unfold rstrip
  rw [List.reverse_append]
  cases hw' : w.reverse with
  | nil => exact absurd (by simpa using congrArg List.reverse hw') hw
  | cons c t =>
    have hc : c ∈ w := by
      rw [← List.mem_reverse, hw']; exact List.mem_cons_self c t
    rw [show (c :: t) ++ s.reverse = c :: (t ++ s.reverse) from rfl] at *
    rw [show List.dropWhile pyIsSpace (c :: (t ++ s.reverse))
          = c :: (t ++ s.reverse) by simp [List.dropWhile_cons, h c hc]]
    rw [show c :: (t ++ s.reverse) = w.reverse ++ s.reverse by rw [hw']; rfl]
    rw [← List.reverse_append, List.reverse_reverse]

theorem joinSp_cons_decomp (w : Str) (ws : List Str) :
    ∃ t, joinSp (w :: ws) = w ++ t := by
  cases ws with
  | nil => exact ⟨[], by simp [joinSp]⟩
  | cons x rest => exact ⟨' ' :: joinSp (x :: rest), rfl⟩

theorem joinSp_last_decomp : ∀ (ws : List Str), ws ≠ [] →
    ∃ pre wl, wl ∈ ws ∧ joinSp ws = pre ++ wl
  | [], h => absurd rfl h
  | [w], _ => ⟨[], w, List.mem_cons_self w [], by simp [joinSp]⟩
  | w :: x :: rest, _ => by
    obtain ⟨pre, wl, hmem, heq⟩ := joinSp_last_decomp (x :: rest) (by simp)
    refine ⟨w ++ ' ' :: pre, wl, List.mem_cons_of_mem w hmem, ?_⟩
    show w ++ ' ' :: joinSp (x :: rest) = _
    rw [heq]
    simp

theorem strip_joinSp (ws : List Str) (h : ∀ w ∈ ws, goodWord w) :
    strip (joinSp ws) = joinSp ws := by
  cases ws with
  | nil => rfl
  | cons w rest =>
    obtain ⟨pre, wl, hmem, heq⟩ := joinSp_last_decomp (w :: rest) (by simp)
    have h1 : rstrip (joinSp (w :: rest)) = joinSp (w :: rest) := by
      rw [heq]
      exact rstrip_append_no_ws pre wl (h wl hmem).1 (h wl hmem).2
    obtain ⟨t, ht⟩ := joinSp_cons_decomp w rest
    unfold strip
    rw [h1, ht]
    cases hw : w with
    | nil => exact absurd hw (h w (List.mem_cons_self w rest)).1
    | cons c w' =>
      have hc : pyIsSpace c = false :=
        (h w (List.mem_cons_self w rest)).2 c (by rw [hw]; exact List.mem_cons_self c w')
      exact lstrip_cons_no_ws c (w' ++ t) hc

theorem splitGo_append_no_ws : ∀ (w : Str), (∀ c ∈ w, pyIsSpace c = false) →
    ∀ rest cur, splitGo (w ++ rest) cur = splitGo rest (cur ++ w)
  | [], _, rest, cur => by simp
  | c :: w', hw, rest, cur => by
    have hc : pyIsSpace c = false := hw c (List.mem_cons_self c w')
    show splitGo (c :: (w' ++ rest)) cur = _
    simp only [splitGo, hc]
    rw [splitGo_append_no_ws w' (fun x hx => hw x (List.mem_cons_of_mem c hx)) rest (cur ++ [c])]
    simp

theorem splitGo_all_no_ws (w : Str) (hw : ∀ c ∈ w, pyIsSpace c = false) (cur : Str) :
    splitGo w cur = if cur ++ w = [] then [] else [cur ++ w] := by
  have := splitGo_append_no_ws w hw [] cur
  simpa [splitGo] using this

theorem split_joinSp : ∀ (ws : List Str), (∀ w ∈ ws, goodWord w) →
    split (joinSp ws) = ws
  | [], _ => rfl
  | [w], h => by
    have hgw := h w (List.mem_cons_self w [])
    show splitGo (joinSp [w]) [] = [w]
    rw [show joinSp [w] = w from rfl, splitGo_all_no_ws w hgw.2]
    simp [hgw.1]
  | w :: x :: rest, h => by
    have hgw := h w (List.mem_cons_self w (x :: rest))
    show splitGo (w ++ ' ' :: joinSp (x :: rest)) [] = w :: x :: rest
    rw [splitGo_append_no_ws w hgw.2]
    simp only [List.nil_append, splitGo, pyIsSpace_space]
    rw [if_pos trivial, if_neg hgw.1]
    rw [show splitGo (joinSp (x :: rest)) [] = split (joinSp (x :: rest)) from rfl]
    rw [split_joinSp (x :: rest) (fun y hy => h y (List.mem_cons_of_mem w hy))]

theorem wordsRep_append : ∀ (xs ys : List Str),
    wordsRep (xs ++ ys) = wordsRep xs ++ wordsRep ys
  | [], _ => rfl
  | w :: xs, ys => by
    show w ++ ' ' :: wordsRep (xs ++ ys) = (w ++ ' ' :: wordsRep xs) ++ wordsRep ys
    rw [wordsRep_append xs ys]
    simp

theorem wordsRep_eq_joinSp : ∀ (ws : List Str), ws ≠ [] →
    wordsRep ws = joinSp ws ++ [' ']
  | [], h => absurd rfl h
  | [w], _ => by simp [wordsRep, joinSp]
  | w :: x :: rest, _ => by
    show w ++ ' ' :: wordsRep (x :: rest) = joinSp (w :: x :: rest) ++ [' ']
    rw [wordsRep_eq_joinSp (x :: rest) (by simp)]
    show _ = (w ++ ' ' :: joinSp (x :: rest)) ++ [' ']
    simp

theorem wordsRep_ne_nil (w : Str) (ws : List Str) : wordsRep (w :: ws) ≠ [] := by
  show w ++ ' ' :: wordsRep ws ≠ []
  simp

theorem split_strip_wordsRep (ws : List Str) (h : ∀ w ∈ ws, goodWord w) :
    split (strip (wordsRep ws)) = ws := by
  cases ws with
  | nil => rfl
  | cons w rest =>
    rw [wordsRep_eq_joinSp (w :: rest) (by simp), strip_append_space,
      strip_joinSp (w :: rest) h, split_joinSp (w :: rest) h]

theorem splitGo_good : ∀ (s cur : Str), (∀ c ∈ cur, pyIsSpace c = false) →
    ∀ w ∈ splitGo s cur, goodWord w
  | [], cur, hcur => by
    simp only [splitGo]
    split
    · simp
    · next hne =>
      intro w hw
      rw [List.mem_singleton] at hw
      subst hw
      exact ⟨hne, hcur⟩
  | c :: rest, cur, hcur => by
    simp only [splitGo]
    by_cases hc : pyIsSpace c = true
    · rw [if_pos hc]
      split
      · exact splitGo_good rest [] (by simp)
      · next hne =>
        intro w hw
        rcases List.mem_cons.mp hw with hw | hw
        · subst hw; exact ⟨hne, hcur⟩
        · exact splitGo_good rest [] (by simp) w hw
    · rw [if_neg (by simpa using hc)]
      refine splitGo_good rest (cur ++ [c]) ?_
      intro x hx
      rcases List.mem_append.mp hx with hx | hx
      · exact hcur x hx
      · rw [List.mem_singleton] at hx
        subst hx
        simpa using hc

theorem split_goodWords (s : Str) : ∀ w ∈ split s, goodWord w :=
  splitGo_good s [] (by simp)

theorem all_ws_strip_nil (s : Str) (h : ∀ c ∈ s, pyIsSpace c = true) :
    strip s = [] := by
  have h1 : rstrip s = [] := by
    unfold rstrip
    rw [List.dropWhile_eq_nil_iff.mpr (fun x hx => h x (List.mem_reverse.mp hx))]
    rfl
  unfold strip
  rw [h1]
  rfl

theorem strip_nil_all_ws (s : Str) (h : strip s = []) :
    ∀ c ∈ s, pyIsSpace c = true := by
  have h1 : ∀ c ∈ rstrip s, pyIsSpace c = true := by
    unfold strip lstrip at h
    exact List.dropWhile_eq_nil_iff.mp h
  intro c hc
  have hsplit := List.takeWhile_append_dropWhile (p := pyIsSpace) (l := s.reverse)
  have hc2 : c ∈ s.reverse := List.mem_reverse.mpr hc
  rw [← hsplit] at hc2
  rcases List.mem_append.mp hc2 with hx | hx
  · exact List.mem_takeWhile_imp hx
  · exact h1 c (by unfold rstrip; exact List.mem_reverse.mpr hx)

theorem all_ws_splitGo_nil : ∀ (s : Str), (∀ c ∈ s, pyIsSpace c = true) →
    splitGo s [] = []
  | [], _ => rfl
  | c :: rest, h => by
    simp only [splitGo, h c (List.mem_cons_self c rest)]
    simpa using all_ws_splitGo_nil rest (fun x hx => h x (List.mem_cons_of_mem c hx))

theorem strip_nil_split_nil (s : Str) (h : strip s = []) : split s = [] :=
  all_ws_splitGo_nil s (strip_nil_all_ws s h)

theorem chunkGo_words_flatten (maxLen : Nat) : ∀ (words acc chunks : List Str),
    (∀ w ∈ words, goodWord w) → (∀ w ∈ acc, goodWord w) →
    ((chunkGo maxLen words (wordsRep acc) chunks).map split).flatten
      = (chunks.map split).flatten ++ acc ++ words
  | [], acc, chunks, _, hacc => by
    cases acc with
    | nil => simp [chunkGo, wordsRep]
    | cons a as =>
      simp only [chunkGo]
      rw [if_neg (wordsRep_ne_nil a as)]
      simp only [List.map_append, List.flatten_append, List.map_cons, List.map_nil,
        List.flatten_cons, List.flatten_nil]
      rw [split_strip_wordsRep (a :: as) hacc]
      simp
  | w :: ws, acc, chunks, hw, hacc => by
    have htail : ∀ x ∈ ws, goodWord x := fun x hx => hw x (List.mem_cons_of_mem w hx)
    have hhead : goodWord w := hw w (List.mem_cons_self w ws)
    simp only [chunkGo]
    by_cases hcond : (wordsRep acc).length + w.length + 1 > maxLen
    · rw [if_pos hcond]
      rw [show w ++ [' '] = wordsRep [w] from rfl]
      rw [chunkGo_words_flatten maxLen ws [w] (chunks ++ [strip (wordsRep acc)]) htail
        (by intro y hy; rw [List.mem_singleton] at hy; subst hy; exact hhead)]
      simp only [List.map_append, List.flatten_append, List.map_cons, List.map_nil,
        List.flatten_cons, List.flatten_nil]
      rw [split_strip_wordsRep acc hacc]
      simp
    · rw [if_neg hcond]
      rw [show wordsRep acc ++ (w ++ [' ']) = wordsRep (acc ++ [w]) by
        rw [wordsRep_append]; rfl]
      rw [chunkGo_words_flatten maxLen ws (acc ++ [w]) chunks htail
        (by
          intro y hy
          rcases List.mem_append.mp hy with hy | hy
          · exact hacc y hy
          · rw [List.mem_singleton] at hy; subst hy; exact hhead)]
      simp

theorem chunkGo_length_le (maxLen : Nat) : ∀ (words : List Str) (current : Str)
    (chunks : List Str),
    (∀ w ∈ words, w.length ≤ maxLen) → (∀ c ∈ chunks, c.length ≤ maxLen) →
    (strip current).length ≤ maxLen →
    ∀ c ∈ chunkGo maxLen words current chunks, c.length ≤ maxLen
  | [], current, chunks, _, hc, hcur => by
    simp only [chunkGo]
    split
    · exact hc
    · intro c hmem
      rcases List.mem_append.mp hmem with h | h
      · exact hc c h
      · rw [List.mem_singleton] at h; subst h; exact hcur
  | w :: ws, current, chunks, hw, hc, hcur => by
    have htail : ∀ x ∈ ws, x.length ≤ maxLen := fun x hx => hw x (List.mem_cons_of_mem w hx)
    simp only [chunkGo]
    by_cases hcond : current.length + w.length + 1 > maxLen
    · rw [if_pos hcond]
      refine chunkGo_length_le maxLen ws (w ++ [' ']) _ htail ?_ ?_
      · intro c hmem
        rcases List.mem_append.mp hmem with h | h
        · exact hc c h
        · rw [List.mem_singleton] at h; subst h; exact hcur
      · rw [strip_append_space]
        exact le_trans (length_strip_le w) (hw w (List.mem_cons_self w ws))
    · rw [if_neg hcond]
      refine chunkGo_length_le maxLen ws (current ++ (w ++ [' '])) chunks htail hc ?_
      rw [show current ++ (w ++ [' ']) = (current ++ w) ++ [' '] by simp, strip_append_space]
      have h2 := length_strip_le (current ++ w)
      rw [List.length_append] at h2
      omega

theorem chunkGo_prepend (maxLen : Nat) : ∀ (words : List Str) (current : Str)
    (chunks : List Str),
    chunkGo maxLen words current chunks = chunks ++ chunkGo maxLen words current []
  | [], current, chunks => by
    simp only [chunkGo]
    split
    · simp
    · rfl
  | w :: ws, current, chunks => by
    simp only [chunkGo, List.nil_append]
    split
    · rw [chunkGo_prepend maxLen ws (w ++ [' ']) (chunks ++ [strip current]),
        chunkGo_prepend maxLen ws (w ++ [' ']) [strip current]]
      simp
    · exact chunkGo_prepend maxLen ws (current ++ (w ++ [' '])) chunks

theorem chunkGo_pos (maxLen : Nat) : ∀ (words : List Str) (current : Str),
    current ≠ [] → 1 ≤ (chunkGo maxLen words current []).length
  | [], current, hne => by
    simp only [chunkGo]
    rw [if_neg hne]
    simp
  | w :: ws, current, hne => by
    simp only [chunkGo, List.nil_append]
    split
    · rw [chunkGo_prepend maxLen ws (w ++ [' ']) [strip current]]
      simp
    · exact chunkGo_pos maxLen ws (current ++ (w ++ [' '])) (by simp [hne])

theorem chunkGo_ge_two (maxLen : Nat) : ∀ (words : List Str) (current : Str),
    current.length ≤ maxLen → maxLen < current.length + sumWordLen words →
    2 ≤ (chunkGo maxLen words current []).length
  | [], current, hle, hgt => by
    simp only [sumWordLen] at hgt
    omega
  | w :: ws, current, hle, hgt => by
    simp only [chunkGo, List.nil_append]
    by_cases hcond : current.length + w.length + 1 > maxLen
    · rw [if_pos hcond]
      rw [chunkGo_prepend maxLen ws (w ++ [' ']) [strip current]]
      have := chunkGo_pos maxLen ws (w ++ [' ']) (by simp)
      simp only [List.length_append, List.length_cons, List.length_nil]
      omega
    · rw [if_neg hcond]
      refine chunkGo_ge_two maxLen ws (current ++ (w ++ [' '])) ?_ ?_
      · simp only [List.length_append, List.length_cons, List.length_nil]
        omega
      · simp only [List.length_append, List.length_cons, List.length_nil]
        simp only [sumWordLen] at hgt
        omega

theorem joinSp_length : ∀ (ws : List Str), ws ≠ [] →
    (joinSp ws).length + 1 = sumWordLen ws
  | [], h => absurd rfl h
  | [w], _ => by simp [joinSp, sumWordLen]
  | w :: x :: rest, _ => by
    show (w ++ ' ' :: joinSp (x :: rest)).length + 1 = _
    rw [show sumWordLen (w :: x :: rest) = w.length + 1 + sumWordLen (x :: rest) from rfl]
    rw [← joinSp_length (x :: rest) (by simp)]
    simp
    omega

theorem bigWord_chars : ∀ c ∈ bigWord, pyIsSpace c = false := by
  intro c hc
  rw [List.eq_of_mem_replicate hc]
  rfl

theorem bigWord_length : bigWord.length = 4001 := by
  rw [show bigWord = List.replicate 4001 'a' from rfl, List.length_replicate]

theorem bigWord_ne_nil : bigWord ≠ [] := by
  intro h
  have h2 := congrArg List.length h
  rw [bigWord_length, List.length_nil] at h2
  exact absurd h2 (by omega)

theorem split_bigWord : split bigWord = [bigWord] := by
  unfold split
  rw [splitGo_all_no_ws bigWord bigWord_chars [], List.nil_append,
    if_neg bigWord_ne_nil]

theorem dropWhile_replicate_a (n : Nat) :
    List.dropWhile pyIsSpace (List.replicate n 'a') = List.replicate n 'a' := by
  rw [List.dropWhile_replicate]
  rw [if_neg (by rw [show pyIsSpace 'a' = false from rfl]; simp)]

theorem strip_bigWord : strip bigWord = bigWord := by
  unfold strip rstrip lstrip
  rw [show bigWord = List.replicate 4001 'a' from rfl, List.reverse_replicate,
    dropWhile_replicate_a, List.reverse_replicate, dropWhile_replicate_a]

theorem splitGo_all_ws : ∀ (s : Str), (∀ c ∈ s, pyIsSpace c = true) →
    ∀ cur, splitGo s cur = if cur = [] then [] else [cur]
  | [], _, cur => rfl
  | c :: rest, h, cur => by
    have hc := h c (List.mem_cons_self c rest)
    have hrest := fun x hx => h x (List.mem_cons_of_mem c hx)
    simp only [splitGo, hc, if_true]
    rw [splitGo_all_ws rest hrest []]
    simp only [if_pos rfl]
    split
    · rfl
    · rfl

theorem dropWhile_space_replicate (n : Nat) :
    List.dropWhile pyIsSpace (List.replicate n ' ') = [] := by
  rw [List.dropWhile_replicate, if_pos pyIsSpace_space]

theorem spaces4000_all_ws : ∀ c ∈ spaces4000, pyIsSpace c = true := by
  intro c hc
  rw [List.eq_of_mem_replicate hc]
  rfl

theorem aSpaces_eq : aSpaces = ['a'] ++ List.replicate 4000 ' ' := rfl

theorem aSpaces_length : aSpaces.length = 4001 := by
  rw [aSpaces_eq, List.length_append, List.length_replicate]
  rfl

theorem strip_aSpaces : strip aSpaces = ['a'] := by
  unfold strip rstrip lstrip
  rw [show aSpaces.reverse = List.replicate 4000 ' ' ++ ['a'] by
    rw [aSpaces_eq, List.reverse_append, List.reverse_replicate]; rfl]
  rw [List.dropWhile_append, dropWhile_space_replicate]
  simp only [List.isEmpty_nil, if_true]
  rw [List.dropWhile_cons_of_neg (by rw [show pyIsSpace 'a' = false from rfl]; simp)]
  rfl

theorem split_aSpaces : split aSpaces = [['a']] := by
  unfold split
  rw [aSpaces_eq,
    splitGo_append_no_ws ['a']
      (by intro c hc; rw [List.mem_singleton] at hc; subst hc; rfl)
      (List.replicate 4000 ' ') [],
    splitGo_all_ws (List.replicate 4000 ' ') spaces4000_all_ws,
    List.nil_append, if_neg (by simp)]

theorem chunkGo_eq_cons (maxLen : Nat) (w : Str) (ws : List Str) (current : Str)
    (chunks : List Str) :
    chunkGo maxLen (w :: ws) current chunks =
      if current.length + w.length + 1 > maxLen then
        chunkGo maxLen ws (w ++ [' ']) (chunks ++ [strip current])
      else
        chunkGo maxLen ws (current ++ (w ++ [' '])) chunks := rfl

theorem chunkGo_eq_nil (maxLen : Nat) (current : Str) (chunks : List Str) :
    chunkGo maxLen [] current chunks =
      if current = [] then chunks else chunks ++ [strip current] := rfl

theorem chunk_text_bigWord : chunk_text bigWord 4000 = [[], bigWord] := by
  unfold chunk_text
  rw [split_bigWord]
  rw [chunkGo_eq_cons]
  rw [if_pos (by rw [List.length_nil, bigWord_length]; omega)]
  rw [chunkGo_eq_nil]
  rw [if_neg (by simp)]
  rw [show strip [] = [] from rfl, strip_append_space, strip_bigWord]
  rfl

/-- C2 (amended): every chunk produced by chunk_text at the configured
limit 4000 has raw character length at most 4000, provided every
whitespace-delimited word of the input has length at most 4000.  The bound
is on text length, not word count. -/
theorem chunk_text_length_le (text : Str)
    (hw : ∀ w ∈ split text, w.length ≤ 4000) :
    ∀ c ∈ chunk_text text 4000, c.length ≤ 4000 :=
  chunkGo_length_le 4000 (split text) [] [] hw
    (by intro c hc; exact absurd hc (List.not_mem_nil c))
    (by rw [show strip [] = [] from rfl]; simp)

theorem chunk_text_length_le_witness :
    (∀ w ∈ split "ab cd".toList, w.length ≤ 4000) ∧
    ∀ c ∈ chunk_text "ab cd".toList 4000, c.length ≤ 4000 :=
  ⟨by decide, chunk_text_length_le "ab cd".toList (by decide)⟩

/-- C2 (counterexample): a single word of 4001 characters is emitted as a
chunk of length 4001, above the configured limit 4000. -/
theorem chunk_text_over_limit_cex :
    bigWord ∈ chunk_text bigWord 4000 ∧ 4000 < bigWord.length := by
  refine ⟨?_, by rw [bigWord_length]; omega⟩
  rw [chunk_text_bigWord]
  simp

/-- C8: concatenating the words of the chunks produced by chunk_text, in
order and ignoring the inserted separators, reproduces the original
whitespace-delimited word sequence of the input. -/
theorem chunk_words_preserved (text : Str) (maxLen : Nat) :
    ((chunk_text text maxLen).map split).flatten = split text := by
  have h := chunkGo_words_flatten maxLen (split text) [] [] (split_goodWords text)
    (by intro w hw; exact absurd hw (List.not_mem_nil w))
  simpa [chunk_text, wordsRep] using h

theorem chunk_words_preserved_witness :
    ((chunk_text "one two".toList 4000).map split).flatten = split "one two".toList :=
  chunk_words_preserved "one two".toList 4000

/-- C7: on text that is empty or whitespace-only, translate_text returns
the input unchanged and makes zero calls to the translation backend. -/
theorem translate_text_whitespace_noop (tr : Str → Str) (text : Str)
    (h : ∀ c ∈ text, pyIsSpace c = true) :
    translate_text tr text = (text, 0) := by
  unfold translate_text
  rw [if_pos (all_ws_strip_nil text h)]

theorem translate_text_whitespace_noop_witness :
    translate_text (fun s => s ++ "!".toList) "   ".toList = ("   ".toList, 0) ∧
    translate_text (fun s => s ++ "!".toList) "".toList = ("".toList, 0) :=
  ⟨translate_text_whitespace_noop _ "   ".toList (by decide),
   translate_text_whitespace_noop _ "".toList (by decide)⟩

/-- C6 (amended): for text of length exactly 4000 that is not
whitespace-only, translate_text makes exactly one backend call; for text
of length 4001 that equals its whitespace-split words rejoined by single
spaces, it makes at least two backend calls. -/
theorem translate_text_call_threshold (tr : Str → Str) :
    (∀ text : Str, text.length = 4000 → (∃ c ∈ text, pyIsSpace c = false) →
      (translate_text tr text).2 = 1) ∧
    (∀ text : Str, joinSp (split text) = text → text.length = 4001 →
      2 ≤ (translate_text tr text).2) := by
  constructor
  · intro text hlen hex
    have hstrip : strip text ≠ [] := by
      intro hnil
      obtain ⟨c, hc, hcf⟩ := hex
      rw [strip_nil_all_ws text hnil c hc] at hcf
      exact absurd hcf (by decide)
    unfold translate_text
    rw [if_neg hstrip, if_neg (by rw [hlen]; omega)]
  · intro text hjoin hlen
    have hsplit_ne : split text ≠ [] := by
      intro hnil
      rw [hnil, show joinSp [] = [] from rfl] at hjoin
      rw [← hjoin] at hlen
      exact absurd hlen (by simp)
    have hstrip : strip text ≠ [] :=
      fun hnil => hsplit_ne (strip_nil_split_nil text hnil)
    have hsum : sumWordLen (split text) = 4002 := by
      rw [← joinSp_length (split text) hsplit_ne, hjoin, hlen]
    unfold translate_text
    rw [if_neg hstrip, if_pos (by rw [hlen]; omega)]
    show 2 ≤ (chunk_text text 4000).length
    unfold chunk_text
    exact chunkGo_ge_two 4000 (split text) [] (by simp)
      (by rw [List.length_nil, hsum]; omega)

theorem translate_text_call_threshold_witness :
    (translate_text (fun s => s) (List.replicate 4000 'a')).2 = 1 ∧
    2 ≤ (translate_text (fun s => s) bigWord).2 :=
  ⟨(translate_text_call_threshold (fun s => s)).1 (List.replicate 4000 'a')
      (by rw [List.length_replicate])
      ⟨'a', List.mem_replicate.mpr ⟨by omega, rfl⟩, rfl⟩,
   (translate_text_call_threshold (fun s => s)).2 bigWord
      (by rw [split_bigWord]; rfl) bigWord_length⟩

theorem translate_text_calls_big (tr : Str → Str) (text : Str)
    (h1 : strip text ≠ []) (h2 : text.length > 4000) :
    (translate_text tr text).2 = (chunk_text text 4000).length := by
  unfold translate_text
  rw [if_neg h1, if_pos h2]

/-- C6 (counterexample): a whitespace-only text of length exactly 4000
makes zero backend calls, not one; and a text of length 4001 containing
one word padded with whitespace makes one backend call, not two. -/
theorem translate_text_threshold_cex :
    spaces4000.length = 4000 ∧ (translate_text (fun s => s) spaces4000).2 = 0 ∧
    aSpaces.length = 4001 ∧ (translate_text (fun s => s) aSpaces).2 = 1 := by
  refine ⟨by rw [show spaces4000 = List.replicate 4000 ' ' from rfl, List.length_replicate],
    ?_, aSpaces_length, ?_⟩
  · unfold translate_text
    rw [if_pos (all_ws_strip_nil spaces4000 spaces4000_all_ws)]
  · rw [translate_text_calls_big (fun s => s) aSpaces
      (by rw [strip_aSpaces]; simp) (by rw [aSpaces_length]; omega)]
    unfold chunk_text
    rw [split_aSpaces]
    rw [chunkGo_eq_cons]
    rw [if_neg (by rw [List.length_nil, List.length_cons, List.length_nil]; omega)]
    rw [chunkGo_eq_nil]
    rw [if_neg (by simp)]
    rfl

/-- C3 (code evaluation at the failing input): for rtf conversion the flag
inserted at position -1 lands between -o and the output path, so the
argument of -o is the flag, not the output path; for docx conversion the
command has the documented shape with no flag. -/
theorem pandoc_rtf_flag_misplaced :
    convert_cmd "notes.docx".toList "out".toList "rtf".toList =
      ["pandoc".toList, "notes.docx".toList, "-o".toList, "--to=rtf".toList,
        "out/notes.rtf".toList] ∧
    convert_cmd "notes.docx".toList "out".toList "docx".toList =
      ["pandoc".toList, "notes.docx".toList, "-o".toList,
        "out/notes.docx".toList] := by
  constructor
  · decide
  · decide

/-- C4: when the parent directory of outputPath is missing, the repack
open raises before any directory creation (os.makedirs runs only after
the with-block), the exception is caught and logged with the input path,
and no output archive is produced. -/
theorem docx_missing_parent_dir_fails (W : World) (input_path : Str) :
    translate_docxRun W input_path false =
      { outFiles := none, dirCreated := false, log := [input_path] } := by
  unfold translate_docxRun translate_docx_body
  cases W.loadDocx input_path with
  | error e => rfl
  | ok d =>
    dsimp only
    cases phase1E W.tr d.content with
    | error e => rfl
    | ok mem =>
      dsimp only
      cases phase2E W d.files with
      | error e => rfl
      | ok files => rfl

/-- C1 (code evaluation at the failing input): a docx whose body holds the
paragraph Hello, under a backend that translates Hello to Hello with an
appended mark, is rewritten to an output archive identical to the input
archive; the translated form differs from the original, so the output does
not contain the Phase-1 translation.  The in-memory Document is never
saved. -/
theorem docx_translations_not_saved_bug :
    (translate_docxRun W1 "translate/a.docx".toList true).outFiles = some [docPart] ∧
    translate_textE W1.tr hello = .ok (hello ++ "!".toList) ∧
    hello ++ "!".toList ≠ hello := by
  refine ⟨by decide, rfl, by decide⟩

theorem mapE_ok_pointwise {α β : Type} (g : α → Except Err β) :
    ∀ (l : List α) (out : List β), mapE g l = .ok out →
      out.length = l.length ∧
      ∀ (i : Nat) (a : α), l[i]? = some a → ∃ b, out[i]? = some b ∧ g a = .ok b
  | [], out, h => by
    simp only [mapE] at h
    injection h with h
    subst h
    refine ⟨rfl, ?_⟩
    intro i a ha
    rw [List.getElem?_nil] at ha
    exact absurd ha (by simp)
  | a :: as, out, h => by
    cases hg : g a with
    | error e => simp [mapE, hg] at h
    | ok b =>
      cases hr : mapE g as with
      | error e => simp [mapE, hg, hr] at h
      | ok bs =>
        simp only [mapE, hg, hr] at h
        injection h with h
        subst h
        obtain ⟨hlen, hpt⟩ := mapE_ok_pointwise g as bs hr
        refine ⟨by simp [hlen], ?_⟩
        intro i x hx
        cases i with
        | zero =>
          rw [List.getElem?_cons_zero] at hx
          injection hx with hx
          subst hx
          exact ⟨b, by simp, hg⟩
        | succ n =>
          rw [List.getElem?_cons_succ] at hx
          obtain ⟨y, hy1, hy2⟩ := hpt n x hx
          exact ⟨y, by rw [List.getElem?_cons_succ]; exact hy1, hy2⟩

theorem translate_docxRun_outFiles (W : World) (ip : Str) (d : Docx)
    (out : List DFile) (hload : W.loadDocx ip = .ok d)
    (hok : (translate_docxRun W ip true).outFiles = some out) :
    phase2E W d.files = .ok out := by
  unfold translate_docxRun translate_docx_body at hok
  rw [hload] at hok
  dsimp only at hok
  cases h1 : phase1E W.tr d.content with
  | error e => rw [h1] at hok; simp at hok
  | ok mem =>
    rw [h1] at hok
    dsimp only at hok
    cases h2 : phase2E W d.files with
    | error e => rw [h2] at hok; simp at hok
    | ok files =>
      rw [h2] at hok
      simp at hok
      rw [hok]

theorem phase2step_spec (W : World) (f g : DFile) (h : phase2step W f = .ok g) :
    g.path = f.path ∧
    (isMediaRaster f.path = false → g.data = f.data) ∧
    (∀ t, isMediaRaster f.path = true → W.ocr f.data = .ok t → strip t = [] →
      g.data = f.data) ∧
    (∀ t t2, isMediaRaster f.path = true → W.ocr f.data = .ok t → strip t ≠ [] →
      translate_textE W.tr t = .ok t2 → g.data = W.overlay f.data t2) := by
  unfold phase2step at h
  by_cases hm : isMediaRaster f.path = true
  · rw [if_pos hm] at h
    cases ho : W.ocr f.data with
    | error e => rw [ho] at h; simp at h
    | ok t =>
      rw [ho] at h
      dsimp only at h
      by_cases hs : strip t = []
      · rw [if_pos hs] at h
        injection h with h
        subst h
        refine ⟨rfl, fun _ => rfl, fun t' _ _ _ => rfl, ?_⟩
        intro t' t2 _ ho' hs' _
        injection ho' with ho'
        subst ho'
        exact absurd hs hs'
      · rw [if_neg hs] at h
        cases ht : translate_textE W.tr t with
        | error e => rw [ht] at h; simp at h
        | ok t2 =>
          rw [ht] at h
          dsimp only at h
          injection h with h
          subst h
          refine ⟨rfl, fun hmf => absurd hm (by rw [hmf]; simp), ?_, ?_⟩
          · intro t' _ ho' hs'
            injection ho' with ho'
            subst ho'
            exact absurd hs' hs
          · intro t' t2' _ ho' _ ht'
            injection ho' with ho'
            subst ho'
            rw [ht] at ht'
            injection ht' with ht'
            subst ht'
            rfl
  · rw [if_neg hm] at h
    injection h with h
    subst h
    refine ⟨rfl, fun _ => rfl, ?_, ?_⟩
    · intro t hmt _ _
      exact absurd hmt hm
    · intro t t2 hmt _ _ _
      exact absurd hmt hm

/-- C9 (amended): a successful archive rewrite repacks every extracted
file under its original relative path, in order, including parts untouched
by the rewrite; an embedded raster image whose recognised text is empty or
whitespace is byte-identical to the input, and one whose recognised text
is non-empty is overwritten with the output of the overlay pipeline on the
translated text, which differs from the input exactly when that pipeline
output differs. -/
theorem archive_repack_complete (W : World) (input_path : Str) (d : Docx)
    (out : List DFile) (hload : W.loadDocx input_path = .ok d)
    (hok : (translate_docxRun W input_path true).outFiles = some out) :
    out.map DFile.path = d.files.map DFile.path ∧
    ∀ (i : Nat) (f : DFile), d.files[i]? = some f →
      ∃ g, out[i]? = some g ∧ g.path = f.path ∧
        (isMediaRaster f.path = false → g.data = f.data) ∧
        (∀ t, isMediaRaster f.path = true → W.ocr f.data = .ok t →
          strip t = [] → g.data = f.data) ∧
        (∀ t t2, isMediaRaster f.path = true → W.ocr f.data = .ok t →
          strip t ≠ [] → translate_textE W.tr t = .ok t2 →
          g.data = W.overlay f.data t2) := by
  have h2 := translate_docxRun_outFiles W input_path d out hload hok
  obtain ⟨hlen, hpt⟩ := mapE_ok_pointwise (phase2step W) d.files out h2
  constructor
  · apply List.ext_getElem?
    intro n
    rw [List.getElem?_map, List.getElem?_map]
    cases hf : d.files[n]? with
    | none =>
      have hn := List.getElem?_eq_none_iff.mp hf
      have hout : out[n]? = none := List.getElem?_eq_none (by omega)
      rw [hout]
    | some f =>
      obtain ⟨g, hg1, hg2⟩ := hpt n f hf
      obtain ⟨hpath, _⟩ := phase2step_spec W f g hg2
      rw [hg1]
      simp [hpath]
  · intro i f hf
    obtain ⟨g, hg1, hg2⟩ := hpt i f hf
    obtain ⟨hpath, hnm, hws, hnws⟩ := phase2step_spec W f g hg2
    exact ⟨g, hg1, hpath, hnm, hws, hnws⟩

theorem archive_repack_complete_witness :
    ((translate_docxRun W9 "translate/b.docx".toList true).outFiles
      = some [mediaFile, stylesFile]) ∧
    [mediaFile, stylesFile].map DFile.path = doc9.files.map DFile.path :=
  ⟨by decide,
   (archive_repack_complete W9 "translate/b.docx".toList doc9
      [mediaFile, stylesFile] rfl (by decide)).1⟩

/-- C9 (counterexample): under an admissible overlay-pipeline behaviour
that reproduces the original bytes, the embedded image is byte-identical
to the input even though its recognised text is non-empty, contradicting
the unconditional claim that such an image always differs. -/
theorem repack_image_unchanged_cex :
    (translate_docxRun Wdeg "translate/c.docx".toList true).outFiles
      = some [mediaFile] ∧
    Wdeg.ocr mediaFile.data = .ok "x".toList ∧
    strip "x".toList ≠ [] := by
  refine ⟨by decide, rfl, by decide⟩

theorem mapE_ok_forall {α β : Type} (g : α → Except Err β) (P : β → Prop)
    (hg : ∀ a b, g a = .ok b → P b) :
    ∀ (l : List α) (out : List β), mapE g l = .ok out → ∀ b ∈ out, P b
  | [], out, h => by
    simp only [mapE] at h
    injection h with h
    subst h
    intro b hb
    exact absurd hb (List.not_mem_nil b)
  | a :: as, out, h => by
    cases hga : g a with
    | error e => simp [mapE, hga] at h
    | ok b0 =>
      cases hr : mapE g as with
      | error e => simp [mapE, hga, hr] at h
      | ok bs =>
        simp only [mapE, hga, hr] at h
        injection h with h
        subst h
        intro b hb
        rcases List.mem_cons.mp hb with h1 | h1
        · exact h1 ▸ hg a b0 hga
        · exact mapE_ok_forall g P hg as bs hr b h1

theorem blockOpsE_oc (tr : Str → Except Err Str) (x : Nat) (b : Block)
    (l : List PdfOp) (h : blockOpsE tr x b = .ok l) :
    ∀ op ∈ l, PdfOp.ocRef op = x := by
  unfold blockOpsE at h
  cases hp : b.payload with
  | nonText =>
    rw [hp] at h
    dsimp only at h
    injection h with h
    subst h
    intro op hop
    exact absurd hop (List.not_mem_nil op)
  | text s =>
    rw [hp] at h
    dsimp only at h
    cases ht : translate_textE tr s with
    | error e => rw [ht] at h; simp at h
    | ok t =>
      rw [ht] at h
      dsimp only at h
      injection h with h
      subst h
      intro op hop
      rcases List.mem_cons.mp hop with h1 | h1
      · subst h1; rfl
      · rw [List.mem_singleton] at h1; subst h1; rfl

theorem pageOpsE_oc (tr : Str → Except Err Str) (x : Nat) (pg : List Block)
    (l : List PdfOp) (h : pageOpsE tr x pg = .ok l) :
    ∀ op ∈ l, PdfOp.ocRef op = x := by
  unfold pageOpsE at h
  cases hm : mapE (blockOpsE tr x) pg with
  | error e => rw [hm] at h; simp at h
  | ok ls =>
    rw [hm] at h
    dsimp only at h
    injection h with h
    subst h
    intro op hop
    rw [List.mem_flatten] at hop
    obtain ⟨l0, hl0, hop0⟩ := hop
    exact mapE_ok_forall (blockOpsE tr x) (fun lb => ∀ op ∈ lb, PdfOp.ocRef op = x)
      (fun b lb hb => blockOpsE_oc tr x b lb hb) pg ls hm l0 hl0 op hop0

theorem pagesOpsE_oc (tr : Str → Except Err Str) (x : Nat)
    (pages : List (List Block)) (ops : List PdfOp)
    (h : pagesOpsE tr x pages = .ok ops) :
    ∀ op ∈ ops, PdfOp.ocRef op = x := by
  unfold pagesOpsE at h
  cases hm : mapE (pageOpsE tr x) pages with
  | error e => rw [hm] at h; simp at h
  | ok ls =>
    rw [hm] at h
    dsimp only at h
    injection h with h
    subst h
    intro op hop
    rw [List.mem_flatten] at hop
    obtain ⟨l0, hl0, hop0⟩ := hop
    exact mapE_ok_forall (pageOpsE tr x) (fun lp => ∀ op ∈ lp, PdfOp.ocRef op = x)
      (fun pg lp hp => pageOpsE_oc tr x pg lp hp) pages ls hm l0 hl0 op hop0

/-- C10 (amended): every successful PDF rewrite creates exactly one
overlay layer for the whole document, always bearing the fixed name
Portuguese with its visibility toggled on, and every erasure rectangle and
every inserted translation is scoped to that layer.  The name is the same
constant on every run, not unique per run. -/
theorem pdf_overlay_single_layer (W : World) (input_path : Str) (out : PdfOut)
    (h : translate_pdf_body W input_path = .ok out) :
    out.layers = [{ name := "Portuguese".toList, visible := true }] ∧
    ∀ op ∈ out.ops, PdfOp.ocRef op = 0 := by
  unfold translate_pdf_body at h
  cases hl : W.loadPdf input_path with
  | error e => rw [hl] at h; simp at h
  | ok doc =>
    rw [hl] at h
    dsimp only at h
    cases hp : pagesOpsE W.tr 0 doc.pages with
    | error e => rw [hp] at h; simp at h
    | ok ops =>
      rw [hp] at h
      dsimp only at h
      injection h with h
      subst h
      exact ⟨rfl, pagesOpsE_oc W.tr 0 doc.pages ops hp⟩

theorem pdf_overlay_single_layer_witness :
    ∃ out, translate_pdf_body W10 "translate/d.pdf".toList = .ok out ∧
      out.layers = [{ name := "Portuguese".toList, visible := true }] ∧
      ∀ op ∈ out.ops, PdfOp.ocRef op = 0 :=
  ⟨_, rfl, pdf_overlay_single_layer W10 "translate/d.pdf".toList _ rfl⟩

/-- C10 (counterexample): two runs on two different documents both name
their overlay layer Portuguese, so the layer name is not unique per run. -/
theorem pdf_layer_name_not_unique_cex :
    pdfA ≠ pdfB ∧
    translate_pdf_body WpdfA "a.pdf".toList = .ok { layers := [layerPT], ops := [] } ∧
    translate_pdf_body WpdfB "b.pdf".toList = .ok { layers := [layerPT], ops := [] } := by
  refine ⟨by decide, rfl, rfl⟩

/-- C5: for every world of external behaviours and every job, process_file
returns normally: any failure inside the selected rewriter or bridge is
caught and swallowed, and when the selected route fails its log names the
offending input path. -/
theorem process_file_no_escape (W : World) (input_path output_path ext : Str) :
    ∃ r, process_fileE W input_path output_path ext = Except.ok r ∧
      (r.routeFailed = true → input_path ∈ r.log) := by
  unfold process_fileE
  by_cases h1 : ext = ".docx".toList
  · rw [if_pos h1]
    refine ⟨_, rfl, ?_⟩
    intro hfail
    dsimp only at hfail
    unfold translate_docxRun at hfail ⊢
    cases hb : translate_docx_body W input_path (W.parentExists (dirname output_path)) with
    | ok r0 => rw [hb] at hfail; simp at hfail
    | error e => simp
  · rw [if_neg h1]
    by_cases h2 : ext = ".pdf".toList
    · rw [if_pos h2]
      refine ⟨_, rfl, ?_⟩
      intro hfail
      dsimp only at hfail
      unfold translate_pdfRun at hfail ⊢
      cases hb : translate_pdf_body W input_path with
      | ok r0 => rw [hb] at hfail; simp at hfail
      | error e => simp
    · rw [if_neg h2]
      rcases hbb : bridge_body W input_path output_path ext with ⟨res, lg⟩
      cases res with
      | ok u =>
        refine ⟨_, rfl, ?_⟩
        intro hfail
        simp at hfail
      | error e =>
        refine ⟨_, rfl, ?_⟩
        intro _
        simp

theorem process_file_no_escape_witness :
    ∃ r, process_fileE Wfail "translate/a.docx".toList "Portuguese/a.docx".toList
        ".docx".toList = Except.ok r ∧
      (r.routeFailed = true → "translate/a.docx".toList ∈ r.log) :=
  process_file_no_escape Wfail "translate/a.docx".toList
    "Portuguese/a.docx".toList ".docx".toList
